import Mathlib

/-!
Shallow embedding of `src/FileHarmony.py` (class `AudioRenamer`) and proofs
about its tree model, selection collector and rename engine.

Modeling conventions:

* Filesystem paths are lists of path components (`FsPath`).  `os.path.split`
  removes the last component, `os.path.join folder name` appends the
  components of `name`; when a title string used as a filename contains the
  separator character, joining introduces several components, exactly as the
  flat string concatenation performed by `os.path.join` does.  The separator
  is written `/` here.
* Python strings are Lean `String`s; `str.lower()` is modeled on ASCII
  (`Char.toLower`), which covers every extension test in the source.
* The filesystem is a snapshot `Disk`: a list of files, each carrying the
  title-tag contents that mutagen would read from it, plus a list of
  directories.  `os.path.exists` / `os.path.isfile` / `os.path.isdir` are
  membership tests in the snapshot; `os.walk` enumerates the files whose
  path lies strictly below the walked directory.  (Windows compares paths
  case-insensitively; the snapshot uses exact component equality, which is
  noted where it matters.)
* Qt semantics: `QTreeWidgetItem.setCheckState` emits `itemChanged` (which
  runs the connected handler `on_item_changed`) only when the stored value
  actually changes; `QTreeWidgetItem::setData` returns early on an unchanged
  value.  The embedding of `setCheckState` below therefore recurses into the
  children exactly when the node's state changes.
-/

namespace FileHarmony

/-- A filesystem path, as its list of components. -/
abbrev FsPath := List String

/-- `SUPPORTED_EXTS` (line 20 of the source). -/
def SUPPORTED_EXTS : List String := [".mp3", ".flac", ".wav"]

/-- Python `s.lower()`, restricted to ASCII characters. -/
def lowerStr (s : String) : String := ⟨s.data.map Char.toLower⟩

/-- `name.lower().endswith(SUPPORTED_EXTS)` (lines 91, 138, 143): the
lowercased name ends with one of the supported extensions. -/
def hasSupportedExt (name : String) : Bool :=
  SUPPORTED_EXTS.any fun e => e.data.isSuffixOf (lowerStr name).data

/-- The suffix test applied to a full path.  The source lowers the whole
path string and tests `endswith`; since no extension contains a path
separator this is the same as testing the last component. -/
def pathSupported (p : FsPath) : Bool :=
  match p.getLast? with
  | some n => hasSupportedExt n
  | none => false

/-- Split a character list at its last dot: `some (root, ext)` where `ext`
starts with the last dot of the list, `none` when there is no dot. -/
def splitLastDot : List Char → Option (List Char × List Char)
  | [] => none
  | c :: rest =>
    match splitLastDot rest with
    | some (r, e) => some (c :: r, e)
    | none => if c = '.' then some ([], '.' :: rest) else none

/-- `os.path.splitext` on a basename: the extension starts at the last dot,
except that a run of leading dots (as in `".mp3"` or `"..mp3"`) yields no
extension. -/
def splitExtChars (cs : List Char) : List Char × List Char :=
  match splitLastDot cs with
  | some (root, e) => if root.any (· ≠ '.') then (root, e) else (cs, [])
  | none => (cs, [])

/-- `os.path.splitext(file_name)[1].lower()` (line 158). -/
def extOf (name : String) : String := lowerStr ⟨(splitExtChars name.data).2⟩

/-- Python `file_name[:-k]`: the name with its last `k` characters removed. -/
def stemOf (name : String) (k : Nat) : String :=
  ⟨name.data.take (name.data.length - k)⟩

/-- Split a character list on the path separator; mirrors how a joined path
string decomposes into components.  Never returns `[]`. -/
def splitOnSlash : List Char → List (List Char)
  | [] => [[]]
  | c :: rest =>
    match splitOnSlash rest with
    | [] => [[]]
    | g :: gs => if c = '/' then [] :: g :: gs else (c :: g) :: gs

/-- The components a string contributes when used as the final part of
`os.path.join`. -/
def splitSlash (s : String) : List String :=
  (splitOnSlash s.data).map fun cs => ⟨cs⟩

/-- A file in the filesystem snapshot: its absolute path and the title-tag
contents mutagen reads from it.
`tags = none`: opening the file raises (missing or corrupt file);
`tags = some none`: readable, but the title key is absent (the fallback
`file_name[:-k]` applies);
`tags = some (some vs)`: the list of title values; the source joins them
with `''.join(...)`. -/
structure DiskFile where
  path : FsPath
  tags : Option (Option (List String))
deriving DecidableEq

/-- The filesystem snapshot. -/
structure Disk where
  files : List DiskFile
  dirs : List FsPath
deriving DecidableEq

/-- `os.path.isfile(p)` on the snapshot. -/
def Disk.isFile (d : Disk) (p : FsPath) : Bool := d.files.any fun f => f.path == p

/-- `os.path.isdir(p)` on the snapshot. -/
def Disk.isDir (d : Disk) (p : FsPath) : Bool := d.dirs.any fun q => q == p

/-- `os.path.exists(p)` on the snapshot: a file or a directory. -/
def Disk.existsPath (d : Disk) (p : FsPath) : Bool := d.isFile p || d.isDir p

/-- `q` lies strictly below directory `p`, i.e. `os.walk(p)` reaches it. -/
def isUnder (p q : FsPath) : Bool := p.isPrefixOf q && decide (p.length < q.length)

/-- Reading the title (lines 157-171): the mutagen constructor raises when
the file is missing or unreadable (whole `try` block skips); otherwise the
title values are read and joined, with the stem `file_name[:-4]` (or
`[:-5]` for flac) as fallback when the key is absent; an unsupported
extension falls into the defensive `continue` of lines 170-171. -/
def readTitle (disk : Disk) (p : FsPath) : Option String :=
  match disk.files.find? fun f => f.path == p with
  | none => none
  | some f =>
    if extOf (p.getLastD "") = ".mp3" then
      match f.tags with
      | none => none
      | some tg => some (String.join (tg.getD [stemOf (p.getLastD "") 4]))
    else if extOf (p.getLastD "") = ".flac" then
      match f.tags with
      | none => none
      | some tg => some (String.join (tg.getD [stemOf (p.getLastD "") 5]))
    else if extOf (p.getLastD "") = ".wav" then
      match f.tags with
      | none => none
      | some tg => some (String.join (tg.getD [stemOf (p.getLastD "") 4]))
    else none

/-- Lines 156-172 for one collected path: `new_path = os.path.join(folder,
title + ext)`, or `none` when the per-file `try` block skips the file. -/
def computeNewPath (disk : Disk) (p : FsPath) : Option FsPath :=
  match readTitle disk p with
  | none => none
  | some title => some (p.dropLast ++ splitSlash (title ++ extOf (p.getLastD "")))

/-- `os.rename(path, new_path)` on the snapshot: every file stored at `p`
is moved to `q`; metadata travels with the file. -/
def renamePath (d : Disk) (p q : FsPath) : Disk :=
  ⟨d.files.map fun f => if f.path == p then ⟨q, f.tags⟩ else f, d.dirs⟩

/-- The loop state of `rename_files`: the disk snapshot, the `renamed`
counter and the `folders_to_refresh` set (as a duplicate-free list). -/
structure RenameState where
  disk : Disk
  renamed : Nat
  refresh : List FsPath
deriving DecidableEq

/-- `folders_to_refresh.add(folder)` (line 179); Python set insertion. -/
def addFolder (folder : FsPath) (l : List FsPath) : List FsPath :=
  if folder ∈ l then l else l ++ [folder]

/-- One iteration of the rename loop (lines 156-185): resolve the title and
candidate path, skip if the target exists, otherwise rename, bump the
counter and record the containing folder for refresh.  The OS-level rename
failure caught by the second `except` (lines 184-185 — a locked file, or a
target whose parent directory does not exist, as a separator-containing
title can produce) is not modeled: the rename branch always succeeds here.
Statements about a performed rename are therefore only instantiated on
snapshots where the real `os.rename` would succeed, in particular where
the target's parent directory exists. -/
def processOne (st : RenameState) (p : FsPath) : RenameState :=
  match computeNewPath st.disk p with
  | none => st
  | some newPath =>
    if st.disk.existsPath newPath then st
    else ⟨renamePath st.disk p newPath, st.renamed + 1, addFolder p.dropLast st.refresh⟩

/-- The rename loop over the collected `to_rename` paths (lines 155-185). -/
def runRename (st : RenameState) (ps : List FsPath) : RenameState :=
  ps.foldl processOne st

/-- The Qt tri-state of a checkbox. -/
inductive CheckState where
  | unchecked
  | partlyChecked
  | checked
deriving DecidableEq

/-- A `QTreeWidgetItem`: the stored `UserRole` data (the absolute path;
`none` for the "Loading..." placeholder, which never receives one), the
display text, the check state, and the owned children. -/
inductive TNode where
  | mk (path : Option FsPath) (text : String) (state : CheckState)
      (children : List TNode)

/-- The stored `UserRole` data of an item. -/
def TNode.path : TNode → Option FsPath
  | .mk p _ _ _ => p

/-- The display text of an item. -/
def TNode.text : TNode → String
  | .mk _ t _ _ => t

/-- The check state of an item. -/
def TNode.state : TNode → CheckState
  | .mk _ _ s _ => s

/-- The children of an item. -/
def TNode.children : TNode → List TNode
  | .mk _ _ _ cs => cs

mutual
/-- `item.setCheckState(0, s)` together with the connected `on_item_changed`
handler (lines 105-109).  Qt emits `itemChanged` only when the stored state
actually changes; the handler then sets every child to the item's new state,
which triggers the same logic on each child in turn. -/
def setCheckState : TNode → CheckState → TNode
  | .mk p t st cs, s =>
    if st = s then .mk p t st cs
    else .mk p t s (setCheckStateList cs s)

/-- The `for` loop of `on_item_changed` over the children. -/
def setCheckStateList : List TNode → CheckState → List TNode
  | [], _ => []
  | c :: cs, s => setCheckState c s :: setCheckStateList cs s
end

mutual
/-- The inner `recurse` of `find_item_by_path` (lines 112-119): return the
node itself if its stored data equals the searched path, else search the
children depth-first. -/
def findInNode (p : FsPath) : TNode → Option TNode
  | .mk po t st cs =>
    if po == some p then some (.mk po t st cs)
    else findInList p cs

/-- Depth-first search over a list of siblings. -/
def findInList (p : FsPath) : List TNode → Option TNode
  | [] => none
  | c :: cs =>
    match findInNode p c with
    | some r => some r
    | none => findInList p cs
end

/-- `find_item_by_path(path)` over all top-level items (lines 121-126). -/
def find_item_by_path (roots : List TNode) (p : FsPath) : Option TNode :=
  findInList p roots

/-- The body of the `os.walk` branch of `gather_checked` (lines 141-146):
every file with a supported extension strictly below `path`, paired with its
`find_item_by_path` lookup (which may be `none` for files not materialized
in the tree). -/
def walkCollect (disk : Disk) (roots : List TNode) (path : FsPath) :
    List (Option TNode × FsPath) :=
  (disk.files.filter fun f => isUnder path f.path && pathSupported f.path).map
    fun f => (find_item_by_path roots f.path, f.path)

mutual
/-- `gather_checked(item)` (lines 132-150).  A node without stored data
returns at once.  A checked node that is a supported file on disk is
appended, and the traversal still falls through to the children loop; a
checked node that is a directory on disk contributes its full recursive walk
and returns without visiting the children; every other node (in particular
an unchecked folder) falls through to the children loop. -/
def gather_checked (disk : Disk) (roots : List TNode) :
    TNode → List (Option TNode × FsPath)
  | .mk po t st cs =>
    match po with
    | none => []
    | some path =>
      if st = .checked ∧ disk.isFile path ∧ pathSupported path then
        (some (.mk po t st cs), path) :: gatherList disk roots cs
      else if st = .checked ∧ disk.isDir path then
        walkCollect disk roots path
      else
        gatherList disk roots cs

/-- The children loop at the end of `gather_checked` (lines 149-150). -/
def gatherList (disk : Disk) (roots : List TNode) :
    List TNode → List (Option TNode × FsPath)
  | [] => []
  | c :: cs => gather_checked disk roots c ++ gatherList disk roots cs
end

/-- Lines 152-153: `gather_checked` applied to every top-level item; the
complete `to_rename` list. -/
def collectChecked (disk : Disk) (roots : List TNode) :
    List (Option TNode × FsPath) :=
  gatherList disk roots roots

/-- A directory entry as `os.scandir` yields it.  Every entry is either a
directory or a regular file. -/
structure FsEntry where
  name : String
  isDir : Bool
deriving DecidableEq

/-- Python code-point comparison of two character lists (`≤`,
lexicographic). -/
def charsLE : List Char → List Char → Bool
  | [], _ => true
  | _ :: _, [] => false
  | a :: as, b :: bs =>
    if a.toNat < b.toNat then true
    else if b.toNat < a.toNat then false
    else charsLE as bs

/-- The first component of the sort key of line 90, `not e.is_dir()`:
`False < True`, so directories come first. -/
def natKey (e : FsEntry) : Nat := if e.isDir then 0 else 1

/-- The sort key of line 90, `(not e.is_dir(), e.name.lower())`, compared
lexicographically: directories before files, then case-insensitive name. -/
def entryLE (a b : FsEntry) : Bool :=
  if natKey a < natKey b then true
  else if natKey b < natKey a then false
  else charsLE (lowerStr a.name).data (lowerStr b.name).data

/-- `entryLE` as a relation, for `List.insertionSort`. -/
def entryRel (a b : FsEntry) : Prop := entryLE a b = true

instance : DecidableRel entryRel := fun a b => by
  unfold entryRel; infer_instance

/-- The "Loading..." placeholder child (lines 63, 101): no stored data, no
children, default (unchecked) state. -/
def loadingItem : TNode := .mk none "Loading..." .unchecked []

/-- The child created for one `os.scandir` entry (lines 94-101): stored
path `entry.path`, text `entry.name`, unchecked state, placeholder child
for directories. -/
def mkChild (path : FsPath) (e : FsEntry) : TNode :=
  .mk (some (path ++ [e.name])) e.name .unchecked
    (if e.isDir then [loadingItem] else [])

/-- `populate_tree(path, parent_item)` (lines 88-103): the `os.scandir`
entries are sorted by `(not is_dir, name.lower())` (Python `sorted` is a
stable sort, embedded as the stable `List.insertionSort`), files with an
unsupported extension are skipped, and each remaining entry becomes an
unchecked child storing the entry's path, directories receiving the
placeholder child.  Returns the created children; on a scan failure the
source creates none. -/
def populate_tree (path : FsPath) (entries : List FsEntry) : List TNode :=
  ((List.insertionSort entryRel entries).filter fun e =>
      !(!e.isDir && !hasSupportedExt e.name)).map (mkChild path)

/-- The post-rename refresh of a recorded folder (lines 189-193):
`takeChildren` discards the children, then `populate_tree` recreates them
from the directory listing; the folder node itself keeps its data, text and
state. -/
def refreshFolder (entries : List FsEntry) : TNode → TNode
  | .mk po t st _ => .mk po t st (populate_tree (po.getD []) entries)

/-- The `os.scandir` listing of directory `p` derived from the snapshot:
the immediate subdirectories and files of `p`. -/
def diskListing (d : Disk) (p : FsPath) : List FsEntry :=
  (d.dirs.filterMap fun q =>
    if q ≠ [] ∧ q.dropLast = p then some ⟨q.getLastD "", true⟩ else none) ++
  (d.files.filterMap fun f =>
    if f.path ≠ [] ∧ f.path.dropLast = p then some ⟨f.path.getLastD "", false⟩
    else none)

/-!  Infrastructure: traversal of the tree and induction principles.  -/

/-- `InTree m n`: the node `m` occurs in the (materialized) subtree rooted
at `n`, the root included. -/
inductive InTree : TNode → TNode → Prop where
  | refl (n : TNode) : InTree n n
  | child {n c r : TNode} : c ∈ r.children → InTree n c → InTree n r

mutual
/-- Structural induction over a tree node through its child list. -/
theorem TNode.strongInd {P : TNode → Prop}
    (h : ∀ (po : Option FsPath) (t : String) (st : CheckState)
      (cs : List TNode), (∀ c ∈ cs, P c) → P (.mk po t st cs)) :
    ∀ n, P n
  | .mk po t st cs => h po t st cs (TNode.strongIndList h cs)

/-- Companion of `TNode.strongInd` for child lists. -/
theorem TNode.strongIndList {P : TNode → Prop}
    (h : ∀ (po : Option FsPath) (t : String) (st : CheckState)
      (cs : List TNode), (∀ c ∈ cs, P c) → P (.mk po t st cs)) :
    ∀ cs : List TNode, ∀ c ∈ cs, P c
  | c :: cs => fun x hx => by
      rcases List.mem_cons.mp hx with h1 | h2
      · exact h1 ▸ TNode.strongInd h c
      · exact TNode.strongIndList h cs x h2
  | [] => fun x hx => absurd hx (List.not_mem_nil x)
end

theorem inTree_mk_iff {m : TNode} {po t st cs} :
    InTree m (.mk po t st cs) ↔ m = .mk po t st cs ∨ ∃ c ∈ cs, InTree m c := by
  constructor
  · intro h
    cases h with
    | refl => exact Or.inl rfl
    | child hc hin => exact Or.inr ⟨_, hc, hin⟩
  · rintro (rfl | ⟨c, hc, hin⟩)
    · exact .refl _
    · exact .child hc hin

mutual
/-- All check states occurring in the subtree of a node. -/
def subStates : TNode → List CheckState
  | .mk _ _ st cs => st :: subStatesList cs

/-- All check states occurring in a forest. -/
def subStatesList : List TNode → List CheckState
  | [] => []
  | c :: cs => subStates c ++ subStatesList cs
end

theorem mem_subStatesList {x : CheckState} :
    ∀ {cs : List TNode}, ∀ c ∈ cs, x ∈ subStates c → x ∈ subStatesList cs := by
  intro cs
  induction cs with
  | nil => intro c hc; exact absurd hc (List.not_mem_nil c)
  | cons d ds ih =>
    intro c hc hx
    rcases List.mem_cons.mp hc with h1 | h2
    · exact List.mem_append.mpr (Or.inl (h1 ▸ hx))
    · exact List.mem_append.mpr (Or.inr (ih c h2 hx))

theorem self_state_mem_subStates (x : TNode) : x.state ∈ subStates x := by
  cases x with
  | mk po t st cs =>
    simp only [subStates, TNode.state]
    exact List.mem_cons_self _ _

theorem state_mem_subStates {m n : TNode} (h : InTree m n) :
    m.state ∈ subStates n := by
  induction h with
  | refl => exact self_state_mem_subStates _
  | child hc hin ih =>
    rename_i c r
    cases r with
    | mk po t st cs =>
      exact List.mem_cons_of_mem _ (mem_subStatesList _ hc ih)

theorem mem_gatherList {disk : Disk} {roots : List TNode}
    {x : Option TNode × FsPath} :
    ∀ {cs : List TNode}, ∀ c ∈ cs, x ∈ gather_checked disk roots c →
      x ∈ gatherList disk roots cs := by
  intro cs
  induction cs with
  | nil => intro c hc; exact absurd hc (List.not_mem_nil c)
  | cons d ds ih =>
    intro c hc hx
    rw [gatherList]
    rcases List.mem_cons.mp hc with h1 | h2
    · exact List.mem_append.mpr (Or.inl (h1 ▸ hx))
    · exact List.mem_append.mpr (Or.inr (ih c h2 hx))

theorem setCheckStateList_eq (cs : List TNode) (s : CheckState) :
    setCheckStateList cs s = cs.map (setCheckState · s) := by
  induction cs with
  | nil => rfl
  | cons c cs ih => rw [setCheckStateList, ih]; rfl

/-!  Claim C3: collision skip.  -/

/-- Claim C3: for every collected file whose computed new path already
exists on disk, the rename engine performs no rename (the loop state, hence
the disk, is unchanged), does not increment the success counter, and
continues with the next file. -/
theorem C3_collision_skip (st : RenameState) (p np : FsPath)
    (rest : List FsPath) (h : computeNewPath st.disk p = some np)
    (hex : st.disk.existsPath np = true) :
    processOne st p = st ∧ runRename st (p :: rest) = runRename st rest := by
  have hp : processOne st p = st := by
    unfold processOne
    rw [h]
    simp [hex]
  exact ⟨hp, by simp [runRename, hp]⟩

/-- The `/music` collision scenario: `track1.mp3` has title `Sunrise` and
`Sunrise.mp3` already exists. -/
def disk3 : Disk :=
  ⟨[⟨["C:", "track1.mp3"], some (some ["Sunrise"])⟩,
    ⟨["C:", "Sunrise.mp3"], some (some ["Sunrise"])⟩], [["C:"]]⟩

theorem C3_witness :
    processOne ⟨disk3, 0, []⟩ ["C:", "track1.mp3"] = ⟨disk3, 0, []⟩ ∧
    runRename ⟨disk3, 0, []⟩ [["C:", "track1.mp3"], ["C:", "x.flac"]] =
      runRename ⟨disk3, 0, []⟩ [["C:", "x.flac"]] :=
  ⟨(C3_collision_skip ⟨disk3, 0, []⟩ ["C:", "track1.mp3"]
      ["C:", "Sunrise.mp3"] [["C:", "x.flac"]] (by decide) (by decide)).1,
   (C3_collision_skip ⟨disk3, 0, []⟩ ["C:", "track1.mp3"]
      ["C:", "Sunrise.mp3"] [["C:", "x.flac"]] (by decide) (by decide)).2⟩

/-!  Claim C8: metadata-read failure skip.  -/

/-- Claim C8: for every collected file on which reading the title metadata
fails, the rename engine skips the file silently (the loop state is
unchanged, the counter is not incremented) and continues with the remaining
files. -/
theorem C8_metadata_failure_skip (st : RenameState) (p : FsPath)
    (rest : List FsPath) (h : readTitle st.disk p = none) :
    processOne st p = st ∧ runRename st (p :: rest) = runRename st rest := by
  have hp : processOne st p = st := by
    unfold processOne computeNewPath
    rw [h]
  exact ⟨hp, by simp [runRename, hp]⟩

/-- A file whose tags cannot be read. -/
def disk8 : Disk := ⟨[⟨["C:", "bad.mp3"], none⟩], [["C:"]]⟩

theorem C8_witness :
    processOne ⟨disk8, 0, []⟩ ["C:", "bad.mp3"] = ⟨disk8, 0, []⟩ ∧
    runRename ⟨disk8, 0, []⟩ [["C:", "bad.mp3"], ["C:", "ok.wav"]] =
      runRename ⟨disk8, 0, []⟩ [["C:", "ok.wav"]] :=
  ⟨(C8_metadata_failure_skip ⟨disk8, 0, []⟩ ["C:", "bad.mp3"]
      [["C:", "ok.wav"]] (by decide)).1,
   (C8_metadata_failure_skip ⟨disk8, 0, []⟩ ["C:", "bad.mp3"]
      [["C:", "ok.wav"]] (by decide)).2⟩

/-!  Claim C10: refresh resets the check state of recreated children.  -/

/-- Claim C10: after the post-rename refresh of a recorded directory, every
recreated child node has check state unchecked, regardless of the states in
the children the refresh discarded: user selections inside a refreshed
folder are not preserved. -/
theorem C10_refresh_unchecked (entries : List FsEntry) (n : TNode) :
    ∀ c ∈ (refreshFolder entries n).children, c.state = .unchecked := by
  intro c hc
  cases n with
  | mk po t st cs =>
    simp only [refreshFolder, TNode.children] at hc
    unfold populate_tree at hc
    rcases List.mem_map.mp hc with ⟨e, _, rfl⟩
    rfl

/-- A folder node whose (about to be discarded) child is checked. -/
def n10 : TNode :=
  .mk (some ["C:", "m"]) "m" .checked
    [.mk (some ["C:", "m", "a.mp3"]) "a.mp3" .checked []]

theorem C10_witness :
    (TNode.mk (some ["C:", "m", "Sunrise.mp3"]) "Sunrise.mp3" .unchecked
      []).state = .unchecked :=
  C10_refresh_unchecked [⟨"Sunrise.mp3", false⟩] n10
    (.mk (some ["C:", "m", "Sunrise.mp3"]) "Sunrise.mp3" .unchecked [])
    (List.Mem.head _)

/-!  Claim C2: pruning of unchecked folders.  The code does NOT prune: when
a node is not checked, `gather_checked` falls through to the children loop
(lines 149-150), so a checked file node below an unchecked folder is
collected.  -/

/-- A checked file node. -/
def file2 : TNode := .mk (some ["C:", "music", "a.mp3"]) "a.mp3" .checked []

/-- An unchecked folder whose materialized child `file2` is checked. -/
def folder2 : TNode := .mk (some ["C:", "music"]) "music" .unchecked [file2]

/-- The disk for the C2 scenario. -/
def disk2 : Disk :=
  ⟨[⟨["C:", "music", "a.mp3"], some none⟩], [["C:"], ["C:", "music"]]⟩

/-- Counterexample to claim C2 as stated: the collector run on an unchecked
folder node still visits its children, and the checked file below it does
appear in the list of files to rename. -/
theorem C2_counterexample :
    folder2.state = .unchecked ∧ disk2.isDir ["C:", "music"] = true ∧
    ["C:", "music", "a.mp3"] ∈
      (collectChecked disk2 [folder2]).map Prod.snd := by decide

/-- Claim C2 (amended): selection collection does not prune an unchecked
folder; it descends into the folder's materialized children, and everything
collected below (in particular an individually checked file node) appears
in the result for the folder. -/
theorem C2_amended_descends (disk : Disk) (roots : List TNode)
    (po : FsPath) (t : String) (cs : List TNode) (c : TNode) (hc : c ∈ cs) :
    ∀ x ∈ gather_checked disk roots c,
      x ∈ gather_checked disk roots (.mk (some po) t .unchecked cs) := by
  intro x hx
  simp only [gather_checked]
  rw [if_neg (by simp), if_neg (by simp)]
  exact mem_gatherList c hc hx

theorem C2_witness :
    ((some file2, ["C:", "music", "a.mp3"]) : Option TNode × FsPath) ∈
      gather_checked disk2 [folder2]
        (.mk (some ["C:", "music"]) "music" .unchecked [file2]) :=
  C2_amended_descends disk2 [folder2] ["C:", "music"] "music" [file2] file2
    (List.Mem.head _) (some file2, ["C:", "music", "a.mp3"])
    (List.Mem.head _)

/-!  Claim C9: renames and directories.  -/

theorem readTitle_ext_supported {disk : Disk} {p : FsPath} {t : String}
    (h : readTitle disk p = some t) :
    extOf (p.getLastD "") = ".mp3" ∨ extOf (p.getLastD "") = ".flac" ∨
      extOf (p.getLastD "") = ".wav" := by
  unfold readTitle at h
  cases hf : disk.files.find? fun f => f.path == p with
  | none => simp only [hf] at h; exact absurd h (by simp)
  | some f =>
    simp only [hf] at h
    by_cases h1 : extOf (p.getLastD "") = ".mp3"
    · exact Or.inl h1
    · by_cases h2 : extOf (p.getLastD "") = ".flac"
      · exact Or.inr (Or.inl h2)
      · by_cases h3 : extOf (p.getLastD "") = ".wav"
        · exact Or.inr (Or.inr h3)
        · rw [if_neg h1, if_neg h2, if_neg h3] at h
          exact absurd h (by simp)

theorem splitOnSlash_eq {cs : List Char} (h : ∀ c ∈ cs, c ≠ '/') :
    splitOnSlash cs = [cs] := by
  induction cs with
  | nil => rfl
  | cons c rest ih =>
    rw [splitOnSlash, ih fun x hx => h x (List.mem_cons_of_mem _ hx)]
    simp [h c (List.mem_cons_self _ _)]

theorem splitSlash_eq {s : String} (h : ∀ c ∈ s.data, c ≠ '/') :
    splitSlash s = [s] := by
  unfold splitSlash
  rw [splitOnSlash_eq h]
  rfl

/-- A title containing the path separator: the source builds `new_path`
from it unsanitized, and the rename lands in a different directory.  The
target's parent directory `C:\m\x` exists on this disk, so the OS-level
`os.rename` into it succeeds (`os.rename` never creates directories; with
the parent present it raises nothing and moves the file). -/
def disk9 : Disk :=
  ⟨[⟨["C:", "m", "a.mp3"], some (some ["x/y"])⟩],
    [["C:"], ["C:", "m"], ["C:", "m", "x"]]⟩

/-- Counterexample to claim C9 as stated: with title `x/y` the computed new
path lies in a different containing directory, and — the parent directory
of the target existing on disk, so the rename call succeeds — the engine
does perform that rename. -/
theorem C9_counterexample :
    disk9.isDir ["C:", "m", "x"] = true ∧
    computeNewPath disk9 ["C:", "m", "a.mp3"] =
      some ["C:", "m", "x", "y.mp3"] ∧
    (["C:", "m", "x", "y.mp3"] : FsPath).dropLast ≠
      (["C:", "m", "a.mp3"] : FsPath).dropLast ∧
    (runRename ⟨disk9, 0, []⟩ [["C:", "m", "a.mp3"]]).disk.files =
      [⟨["C:", "m", "x", "y.mp3"], some (some ["x/y"])⟩] := by decide

/-- Claim C9 (amended): for every collected file whose resolved title
contains no path separator, the computed new path has the same containing
directory as the original path; the unsanitized-title case is the sole
exception. -/
theorem C9_amended_same_dir (st : RenameState) (p np : FsPath) (t : String)
    (ht : readTitle st.disk p = some t) (hs : ∀ c ∈ t.data, c ≠ '/')
    (hnp : computeNewPath st.disk p = some np) :
    np.dropLast = p.dropLast := by
  unfold computeNewPath at hnp
  simp only [ht, Option.some.injEq] at hnp
  have hext := readTitle_ext_supported ht
  have hslash : ∀ c ∈ (t ++ extOf (p.getLastD "")).data, c ≠ '/' := by
    intro c hc
    rw [String.data_append] at hc
    rcases List.mem_append.mp hc with h1 | h2
    · exact hs c h1
    · rcases hext with h | h | h <;> rw [h] at h2 <;> fin_cases h2 <;> decide
  rw [splitSlash_eq hslash] at hnp
  rw [← hnp, List.dropLast_concat]

theorem C9_witness :
    (["C:", "m", "b.mp3"] : FsPath).dropLast =
      (["C:", "m", "a.mp3"] : FsPath).dropLast :=
  C9_amended_same_dir
    ⟨⟨[⟨["C:", "m", "a.mp3"], some (some ["b"])⟩], [["C:"], ["C:", "m"]]⟩,
      0, []⟩
    ["C:", "m", "a.mp3"] ["C:", "m", "b.mp3"] "b" (by decide) (by decide)
    (by decide)

/-!  Splitext arithmetic used by claims C6 and C7.  -/

theorem splitLastDot_none {cs : List Char} (h : ∀ c ∈ cs, c ≠ '.') :
    splitLastDot cs = none := by
  induction cs with
  | nil => rfl
  | cons c rest ih =>
    rw [splitLastDot, ih fun x hx => h x (List.mem_cons_of_mem _ hx)]
    simp [h c (List.mem_cons_self _ _)]

theorem splitLastDot_append {xs tail : List Char} (h : ∀ c ∈ tail, c ≠ '.') :
    splitLastDot (xs ++ '.' :: tail) = some (xs, '.' :: tail) := by
  induction xs with
  | nil =>
    rw [List.nil_append, splitLastDot, splitLastDot_none h]
    simp
  | cons c xs ih =>
    rw [List.cons_append, splitLastDot, ih]

theorem splitExtChars_append {stem tail : List Char}
    (hstem : stem.any (· ≠ '.') = true) (h : ∀ c ∈ tail, c ≠ '.') :
    splitExtChars (stem ++ '.' :: tail) = (stem, '.' :: tail) := by
  unfold splitExtChars
  simp only [splitLastDot_append h]
  rw [if_pos hstem]

theorem extOf_mp3 {stem : String} (hstem : stem.data.any (· ≠ '.') = true) :
    extOf (stem ++ ".mp3") = ".mp3" := by
  unfold extOf
  rw [String.data_append,
    show (".mp3" : String).data = '.' :: ['m', 'p', '3'] from rfl,
    splitExtChars_append hstem (by decide)]
  show lowerStr ⟨['.', 'm', 'p', '3']⟩ = ".mp3"
  decide

theorem extOf_flac {stem : String} (hstem : stem.data.any (· ≠ '.') = true) :
    extOf (stem ++ ".flac") = ".flac" := by
  unfold extOf
  rw [String.data_append,
    show (".flac" : String).data = '.' :: ['f', 'l', 'a', 'c'] from rfl,
    splitExtChars_append hstem (by decide)]
  show lowerStr ⟨['.', 'f', 'l', 'a', 'c']⟩ = ".flac"
  decide

theorem extOf_wav {stem : String} (hstem : stem.data.any (· ≠ '.') = true) :
    extOf (stem ++ ".wav") = ".wav" := by
  unfold extOf
  rw [String.data_append,
    show (".wav" : String).data = '.' :: ['w', 'a', 'v'] from rfl,
    splitExtChars_append hstem (by decide)]
  show lowerStr ⟨['.', 'w', 'a', 'v']⟩ = ".wav"
  decide

theorem stemOf_append {k : Nat} (stem ext : String)
    (h : ext.data.length = k) : stemOf (stem ++ ext) k = stem := by
  unfold stemOf
  rw [String.data_append]
  have hl : (stem.data ++ ext.data).length - k = stem.data.length := by
    rw [List.length_append, h]; omega
  rw [hl, List.take_left]

theorem join_singleton (s : String) : String.join [s] = s := rfl

theorem dropLast_append_getLastD :
    ∀ {p : FsPath}, p ≠ [] → p.dropLast ++ [p.getLastD ""] = p
  | [], h => absurd rfl h
  | [_], _ => rfl
  | a :: b :: m, _ => by
    rw [show (a :: b :: m).dropLast = a :: (b :: m).dropLast from rfl,
      show (a :: b :: m).getLastD "" = (b :: m).getLastD "" from rfl,
      List.cons_append, dropLast_append_getLastD (by simp)]

/-!  Claim C7: files without a title tag.  -/

/-- A file with no title tag whose extension is not lower-case. -/
def disk7 : Disk := ⟨[⟨["C:", "A.MP3"], some none⟩], [["C:"]]⟩

/-- Counterexample to claim C7 as stated: for `A.MP3` without a title tag
the resolved title is the stem `A`, but the computed new path `A.mp3`
(lower-cased extension) differs from the original path, so "the computed
new path equals the original path" fails. -/
theorem C7_counterexample :
    readTitle disk7 ["C:", "A.MP3"] = some "A" ∧
    computeNewPath disk7 ["C:", "A.MP3"] = some ["C:", "A.mp3"] ∧
    (["C:", "A.mp3"] : FsPath) ≠ ["C:", "A.MP3"] := by decide

/-- Claim C7 (amended): for every collected file without a title tag whose
name is a stem followed by one of the (lower-case) supported extensions,
the resolved title is the filename minus its extension, the computed new
path equals the original path, the file is not renamed and the counter is
unchanged.  (When the on-disk extension is not lower-case the new path
differs from the original in extension case.) -/
theorem C7_no_tag_noop (st : RenameState) (p : FsPath)
    (rest : List FsPath) (f : DiskFile) (stem ext : String)
    (hfind : st.disk.files.find? (fun g => g.path == p) = some f)
    (htags : f.tags = some none)
    (hext : ext ∈ SUPPORTED_EXTS)
    (hname : p.getLastD "" = stem ++ ext)
    (hstem : stem.data.any (· ≠ '.') = true)
    (hslash : ∀ c ∈ stem.data, c ≠ '/')
    (hp : p ≠ []) :
    readTitle st.disk p = some stem ∧
    computeNewPath st.disk p = some p ∧
    processOne st p = st ∧
    runRename st (p :: rest) = runRename st rest := by
  have hcase : ext = ".mp3" ∨ ext = ".flac" ∨ ext = ".wav" := by
    simpa [SUPPORTED_EXTS] using hext
  have hro : readTitle st.disk p = some stem := by
    unfold readTitle
    simp only [hfind, htags, hname]
    rcases hcase with h | h | h <;> subst h
    · rw [if_pos (extOf_mp3 hstem)]
      simp only [Option.getD]
      rw [stemOf_append stem _ (by decide), join_singleton]
    · rw [if_neg (by rw [extOf_flac hstem]; decide),
        if_pos (extOf_flac hstem)]
      simp only [Option.getD]
      rw [stemOf_append stem _ (by decide), join_singleton]
    · rw [if_neg (by rw [extOf_wav hstem]; decide),
        if_neg (by rw [extOf_wav hstem]; decide),
        if_pos (extOf_wav hstem)]
      simp only [Option.getD]
      rw [stemOf_append stem _ (by decide), join_singleton]
  have hextOf : extOf (p.getLastD "") = ext := by
    rw [hname]
    rcases hcase with h | h | h <;> subst h
    · exact extOf_mp3 hstem
    · exact extOf_flac hstem
    · exact extOf_wav hstem
  have hnp : computeNewPath st.disk p = some p := by
    unfold computeNewPath
    simp only [hro]
    have hsl : ∀ c ∈ (stem ++ ext).data, c ≠ '/' := by
      intro c hc
      rw [String.data_append] at hc
      rcases List.mem_append.mp hc with h1 | h2
      · exact hslash c h1
      · rcases hcase with h | h | h <;> rw [h] at h2 <;> fin_cases h2 <;>
          decide
    rw [hextOf, splitSlash_eq hsl, ← hname, dropLast_append_getLastD hp]
  have hex : st.disk.existsPath p = true := by
    have hm := List.mem_of_find?_eq_some hfind
    have hq := List.find?_some hfind
    simp only [Disk.existsPath, Disk.isFile, Bool.or_eq_true, List.any_eq_true]
    exact Or.inl ⟨f, hm, hq⟩
  have hpr : processOne st p = st := by
    unfold processOne
    rw [hnp]
    simp [hex]
  exact ⟨hro, hnp, hpr, by simp [runRename, hpr]⟩

/-- The `/music` fallback scenario: `track2.mp3` has no title tag. -/
def disk7w : Disk := ⟨[⟨["C:", "track2.mp3"], some none⟩], [["C:"]]⟩

theorem C7_witness :
    readTitle disk7w ["C:", "track2.mp3"] = some "track2" ∧
    computeNewPath disk7w ["C:", "track2.mp3"] = some ["C:", "track2.mp3"] ∧
    processOne ⟨disk7w, 0, []⟩ ["C:", "track2.mp3"] = ⟨disk7w, 0, []⟩ ∧
    runRename ⟨disk7w, 0, []⟩ [["C:", "track2.mp3"]] =
      runRename ⟨disk7w, 0, []⟩ [] :=
  C7_no_tag_noop ⟨disk7w, 0, []⟩ ["C:", "track2.mp3"] []
    ⟨["C:", "track2.mp3"], some none⟩ "track2" ".mp3" (by decide) rfl
    (by decide) rfl (by decide) (by decide) (by decide)

/-!  Claim C4: the children inserted by `populate_tree`.  -/

theorem charsLE_total : ∀ a b : List Char,
    charsLE a b = true ∨ charsLE b a = true
  | [], _ => Or.inl rfl
  | _ :: _, [] => Or.inr rfl
  | a :: as, b :: bs => by
    rw [charsLE, charsLE]
    rcases Nat.lt_trichotomy a.toNat b.toNat with h | h | h
    · left; rw [if_pos h]
    · rw [if_neg (by omega), if_neg (by omega), if_neg (by omega),
        if_neg (by omega)]
      exact charsLE_total as bs
    · right; rw [if_pos h]

theorem charsLE_trans : ∀ a b c : List Char, charsLE a b = true →
    charsLE b c = true → charsLE a c = true
  | [], _, _, _, _ => rfl
  | _ :: _, [], _, h, _ => by rw [charsLE] at h; exact absurd h (by simp)
  | _ :: _, _ :: _, [], _, h => by
    rw [charsLE] at h; exact absurd h (by simp)
  | a :: as, b :: bs, c :: cs, h1, h2 => by
    rw [charsLE] at h1 h2 ⊢
    by_cases hab : a.toNat < b.toNat
    · by_cases hcb : c.toNat < b.toNat
      · by_cases hbc : b.toNat < c.toNat
        · rw [if_pos (by omega)]
        · rw [if_neg hbc, if_pos hcb] at h2; exact absurd h2 (by simp)
      · rw [if_pos (by omega)]
    · by_cases hba : b.toNat < a.toNat
      · rw [if_neg hab, if_pos hba] at h1; exact absurd h1 (by simp)
      · rw [if_neg hab, if_neg hba] at h1
        by_cases hbc : b.toNat < c.toNat
        · rw [if_pos (by omega)]
        · by_cases hcb : c.toNat < b.toNat
          · rw [if_neg hbc, if_pos hcb] at h2; exact absurd h2 (by simp)
          · rw [if_neg hbc, if_neg hcb] at h2
            rw [if_neg (by omega), if_neg (by omega)]
            exact charsLE_trans as bs cs h1 h2

theorem entryLE_total (a b : FsEntry) :
    entryLE a b = true ∨ entryLE b a = true := by
  unfold entryLE
  rcases Nat.lt_trichotomy (natKey a) (natKey b) with h | h | h
  · left; rw [if_pos h]
  · rw [if_neg (by omega), if_neg (by omega), if_neg (by omega),
      if_neg (by omega)]
    exact charsLE_total _ _
  · right; rw [if_pos h]

theorem entryLE_trans (a b c : FsEntry) (h1 : entryLE a b = true)
    (h2 : entryLE b c = true) : entryLE a c = true := by
  unfold entryLE at h1 h2 ⊢
  by_cases hab : natKey a < natKey b
  · by_cases hcb : natKey c < natKey b
    · by_cases hbc : natKey b < natKey c
      · rw [if_pos (by omega)]
      · rw [if_neg hbc, if_pos hcb] at h2; exact absurd h2 (by simp)
    · rw [if_pos (by omega)]
  · by_cases hba : natKey b < natKey a
    · rw [if_neg hab, if_pos hba] at h1; exact absurd h1 (by simp)
    · rw [if_neg hab, if_neg hba] at h1
      by_cases hbc : natKey b < natKey c
      · rw [if_pos (by omega)]
      · by_cases hcb : natKey c < natKey b
        · rw [if_neg hbc, if_pos hcb] at h2; exact absurd h2 (by simp)
        · rw [if_neg hbc, if_neg hcb] at h2
          rw [if_neg (by omega), if_neg (by omega)]
          exact charsLE_trans _ _ _ h1 h2

instance : IsTotal FsEntry entryRel :=
  ⟨fun a b => by unfold entryRel; exact entryLE_total a b⟩

instance : IsTrans FsEntry entryRel :=
  ⟨fun a b c h1 h2 => by
    unfold entryRel at h1 h2 ⊢; exact entryLE_trans a b c h1 h2⟩

/-- The sort key read off a created child node: a directory child carries
the placeholder, a file child has no children. -/
def nodeKey (n : TNode) : Nat := if n.children.isEmpty then 1 else 0

/-- The intended order of the created children: directories before files,
then case-insensitively by display text. -/
def nodeLE (n m : TNode) : Bool :=
  if nodeKey n < nodeKey m then true
  else if nodeKey m < nodeKey n then false
  else charsLE (lowerStr n.text).data (lowerStr m.text).data

theorem nodeLE_mkChild (path : FsPath) (a b : FsEntry)
    (h : entryLE a b = true) :
    nodeLE (mkChild path a) (mkChild path b) = true := by
  have hk : ∀ e : FsEntry, nodeKey (mkChild path e) = natKey e := by
    intro e
    rcases e with ⟨n, d⟩
    cases d <;> rfl
  rw [nodeLE, hk, hk]
  rw [entryLE] at h
  exact h

/-- Claim C4: for every directory, the children `populate_tree` inserts are
exactly the entries that are directories or files with a supported
extension, ordered directories-before-files and then case-insensitively by
name; no file node with an unsupported extension is ever created. -/
theorem C4_populate_children (path : FsPath) (entries : List FsEntry) :
    ((populate_tree path entries).map TNode.text).Perm
      ((entries.filter fun e => e.isDir || hasSupportedExt e.name).map
        FsEntry.name) ∧
    (populate_tree path entries).Pairwise (fun n m => nodeLE n m = true) ∧
    ∀ n ∈ populate_tree path entries, n.children = [] →
      hasSupportedExt n.text = true := by
  have hpred : (fun e : FsEntry => !(!e.isDir && !hasSupportedExt e.name)) =
      fun e : FsEntry => e.isDir || hasSupportedExt e.name := by
    funext e
    cases e.isDir <;> cases hasSupportedExt e.name <;> rfl
  refine ⟨?_, ?_, ?_⟩
  · unfold populate_tree
    rw [List.map_map]
    have htext : (TNode.text ∘ mkChild path) = FsEntry.name := by
      funext e; rfl
    rw [htext, hpred]
    exact ((List.perm_insertionSort entryRel entries).filter _).map _
  · unfold populate_tree
    rw [List.pairwise_map]
    exact ((List.sorted_insertionSort entryRel entries).filter _).imp
      (nodeLE_mkChild path _ _)
  · intro n hn hch
    unfold populate_tree at hn
    rcases List.mem_map.mp hn with ⟨e, he, rfl⟩
    have hp := (List.mem_filter.mp he).2
    rcases e with ⟨nm, d⟩
    cases d with
    | true => exact absurd hch (by simp [mkChild, TNode.children])
    | false =>
      simp at hp
      exact hp

/-- A concrete listing for the C4 witness: one supported file, one
unsupported file, one directory. -/
def entries4 : List FsEntry := [⟨"b.mp3", false⟩, ⟨"x.txt", false⟩, ⟨"A", true⟩]

theorem C4_witness :
    ((populate_tree ["C:"] entries4).map TNode.text).Perm
      ((entries4.filter fun e => e.isDir || hasSupportedExt e.name).map
        FsEntry.name) :=
  (C4_populate_children ["C:"] entries4).1

/-!  Claim C5: downward propagation of `setCheckState`.  Propagation runs
through the `itemChanged` signal, which Qt only emits when a stored state
actually changes; an already-checked intermediate node therefore blocks
propagation into its own subtree.  -/

/-- The C5 scenario: the middle node is already checked while its child is
unchecked (reachable in the UI by checking the middle node and then
unchecking its child). -/
def n5 : TNode :=
  .mk (some ["C:"]) "C:" .unchecked
    [.mk (some ["C:", "d"]) "d" .checked
      [.mk (some ["C:", "d", "e"]) "e" .unchecked []]]

/-- Counterexample to claim C5 as stated: setting the root of `n5` to
checked leaves the materialized grandchild unchecked, because the
already-checked middle node emits no change signal. -/
theorem C5_counterexample :
    InTree (.mk (some ["C:", "d", "e"]) "e" .unchecked [])
      (setCheckState n5 .checked) ∧
    (TNode.mk (some ["C:", "d", "e"]) "e" .unchecked []).state ≠ .checked ∧
    subStates (setCheckState n5 .checked) =
      [.checked, .checked, .unchecked] := by
  refine ⟨?_, by decide, by rfl⟩
  show InTree _ (.mk (some ["C:"]) "C:" .checked
    [.mk (some ["C:", "d"]) "d" .checked
      [.mk (some ["C:", "d", "e"]) "e" .unchecked []]])
  exact .child (List.Mem.head _) (.child (List.Mem.head _) (.refl _))

/-- Claim C5 (amended): if neither the node nor any of its materialized
descendants is already checked, then immediately after setting the node's
check state to checked every node of its materialized subtree is checked.
(An already-checked descendant blocks propagation below itself, since Qt
emits no change signal for it.) -/
theorem C5_amended_propagation (n : TNode)
    (h : ∀ m, InTree m n → m.state ≠ .checked) :
    ∀ m, InTree m (setCheckState n .checked) → m.state = .checked := by
  induction n using TNode.strongInd with
  | _ po t st cs ih =>
    intro m hm
    have hst : st ≠ .checked := h _ (.refl _)
    rw [setCheckState, if_neg hst] at hm
    rcases inTree_mk_iff.mp hm with rfl | ⟨c, hc, hin⟩
    · rfl
    · rw [setCheckStateList_eq] at hc
      rcases List.mem_map.mp hc with ⟨c0, hc0, rfl⟩
      exact ih c0 hc0 (fun m' hm' => h m' (.child hc0 hm')) m hin

/-- A fully unchecked two-node tree for the C5 witness. -/
def n5w : TNode :=
  .mk (some ["C:"]) "C:" .unchecked [.mk (some ["C:", "d"]) "d" .unchecked []]

theorem C5_witness :
    (TNode.mk (some ["C:", "d"]) "d" .checked []).state = .checked :=
  C5_amended_propagation n5w
    (fun m hm => by
      have h1 := state_mem_subStates hm
      rw [show subStates n5w = [.unchecked, .unchecked] from rfl] at h1
      intro hc
      rw [hc] at h1
      exact absurd h1 (by decide))
    (.mk (some ["C:", "d"]) "d" .checked [])
    (by
      show InTree _ (.mk (some ["C:"]) "C:" .checked
        [.mk (some ["C:", "d"]) "d" .checked []])
      exact .child (List.Mem.head _) (.refl _))

/-!  Claim C1: completeness of the collector for checked directories.  -/

/-- Boolean prefix test versus the propositional one. -/
theorem isPrefixOfProp {l1 l2 : FsPath} :
    l1.isPrefixOf l2 = true ↔ l1 <+: l2 :=
  List.isPrefixOf_iff_prefix

/-- Well-formedness of the tree as the program builds it: a node without
stored data is a "Loading..." placeholder and has no children, and a
child's stored path strictly extends its parent's (each child node of the
tree stores `entry.path`, the parent path plus one component). -/
inductive WF : TNode → Prop where
  | mk {po : Option FsPath} {t : String} {st : CheckState}
      {cs : List TNode} :
      (po = none → cs = []) →
      (∀ c ∈ cs, ∀ p q, po = some p → TNode.path c = some q →
        p <+: q ∧ p.length < q.length) →
      (∀ c ∈ cs, WF c) →
      WF (.mk po t st cs)

/-- In a well-formed tree, the stored path of the root of a subtree is a
prefix of the stored path of every node inside it. -/
theorem wf_inTree_path {r n : TNode} (hin : InTree n r) :
    WF r → ∀ q p : FsPath, r.path = some q → n.path = some p →
      q <+: p ∧ q.length ≤ p.length := by
  induction hin with
  | refl =>
    intro _ q p hq hp
    rw [hq] at hp
    injection hp with hp
    subst hp
    exact ⟨List.prefix_refl _, Nat.le_refl _⟩
  | child hc hin2 ih =>
    rename_i c r
    intro hwf q p hq hp
    cases r with
    | mk po t st cs =>
      cases hwf with
      | mk h1 h2 h3 =>
        have hwfc := h3 c hc
        have hpo : po = some q := hq
        obtain ⟨q', hq'⟩ : ∃ q', c.path = some q' := by
          cases c with
          | mk po' t' st' cs' =>
            cases po' with
            | some q' => exact ⟨q', rfl⟩
            | none =>
              cases hwfc with
              | mk g1 g2 g3 =>
                have hnil : cs' = [] := g1 rfl
                subst hnil
                rcases inTree_mk_iff.mp hin2 with rfl | ⟨cc, hcc, _⟩
                · exact absurd hp (by simp [TNode.path])
                · exact absurd hcc (List.not_mem_nil _)
        have hpq := h2 c hc q q' hpo hq'
        have hqp := ih hwfc q' p hq' hp
        exact ⟨hpq.1.trans hqp.1, by omega⟩

/-- A qualifying file below the walked directory appears in the walk's
collection. -/
theorem mem_walkCollect {disk : Disk} {roots : List TNode} {p : FsPath}
    {f : DiskFile} (hf : f ∈ disk.files) (hund : isUnder p f.path = true)
    (hsupp : pathSupported f.path = true) :
    f.path ∈ (walkCollect disk roots p).map Prod.snd := by
  unfold walkCollect
  rw [List.map_map]
  exact List.mem_map.mpr
    ⟨f, List.mem_filter.mpr ⟨hf, by rw [hund, hsupp]; rfl⟩, rfl⟩

/-- Lifting membership in one child's collection to the sibling loop. -/
theorem mem_gatherList_map {disk : Disk} {roots : List TNode}
    {cs : List TNode} {c : TNode} (hc : c ∈ cs) {z : FsPath}
    (hz : z ∈ (gather_checked disk roots c).map Prod.snd) :
    z ∈ (gatherList disk roots cs).map Prod.snd := by
  rcases List.mem_map.mp hz with ⟨y, hy, rfl⟩
  exact List.mem_map.mpr ⟨y, mem_gatherList c hc hy, rfl⟩

/-- Completeness of `gather_checked`: every supported file strictly below
the stored path of a checked directory node in a well-formed subtree
appears in the collection of that subtree's root. -/
theorem gather_complete {disk : Disk} {roots : List TNode} {f : DiskFile}
    {n r : TNode} (hin : InTree n r) :
    WF r → f ∈ disk.files → pathSupported f.path = true →
    n.state = .checked → ∀ p, n.path = some p → disk.isDir p = true →
    disk.isFile p = false → isUnder p f.path = true →
    f.path ∈ (gather_checked disk roots r).map Prod.snd := by
  induction hin with
  | refl =>
    intro _ hf hsupp hst p hp hdir hnfile hund
    cases n with
    | mk po t st cs =>
      have hpo : po = some p := hp
      subst hpo
      have hst' : st = .checked := hst
      rw [gather_checked]
      rw [if_neg (by
        rintro ⟨-, h2, -⟩
        rw [hnfile] at h2
        exact absurd h2 (by simp))]
      rw [if_pos ⟨hst', by rw [hdir]⟩]
      exact mem_walkCollect hf hund hsupp
  | child hc hin2 ih =>
    rename_i c r
    intro hwf hf hsupp hst p hp hdir hnfile hund
    cases r with
    | mk po t st cs =>
      cases hwf with
      | mk h1 h2 h3 =>
        have hwfc := h3 c hc
        have hrec := ih hwfc hf hsupp hst p hp hdir hnfile hund
        cases po with
        | none =>
          have hnil : cs = [] := h1 rfl
          subst hnil
          exact absurd hc (List.not_mem_nil _)
        | some p0 =>
          rw [gather_checked]
          by_cases hb1 : st = .checked ∧ disk.isFile p0 ∧ pathSupported p0
          · rw [if_pos hb1]
            rw [List.map_cons]
            exact List.mem_cons_of_mem _ (mem_gatherList_map hc hrec)
          · rw [if_neg hb1]
            by_cases hb2 : st = .checked ∧ disk.isDir p0
            · rw [if_pos hb2]
              obtain ⟨q', hq'⟩ : ∃ q', c.path = some q' := by
                cases c with
                | mk po' t' st' cs' =>
                  cases po' with
                  | some q' => exact ⟨q', rfl⟩
                  | none =>
                    cases hwfc with
                    | mk g1 g2 g3 =>
                      have hnil : cs' = [] := g1 rfl
                      subst hnil
                      rcases inTree_mk_iff.mp hin2 with rfl | ⟨cc, hcc, _⟩
                      · exact absurd hp (by simp [TNode.path])
                      · exact absurd hcc (List.not_mem_nil _)
              have hpq := h2 c hc p0 q' rfl hq'
              have hqp := wf_inTree_path hin2 hwfc q' p hq' hp
              rw [isUnder, Bool.and_eq_true] at hund
              obtain ⟨hpre, hlen⟩ := hund
              have hpre' : p <+: f.path := isPrefixOfProp.mp hpre
              have hlen' : p.length < f.path.length := of_decide_eq_true hlen
              apply mem_walkCollect hf ?_ hsupp
              rw [isUnder, Bool.and_eq_true]
              constructor
              · exact isPrefixOfProp.mpr ((hpq.1.trans hqp.1).trans hpre')
              · have h4 := hpq.2
                have h5 := hqp.2
                exact decide_eq_true (by omega)
            · rw [if_neg hb2]
              exact mem_gatherList_map hc hrec

/-- Claim C1: for every checked directory node in a well-formed tree, the
Selection Collector's result contains every file with a supported extension
found by the independent recursive filesystem walk rooted at that node's
stored path — whether or not the file is materialized in the tree, and
including files that appeared on disk after the tree was loaded. -/
theorem C1_collector_complete (disk : Disk) (roots : List TNode)
    (r n : TNode) (p : FsPath) (f : DiskFile)
    (hroot : r ∈ roots) (hwf : WF r) (hin : InTree n r)
    (hst : n.state = .checked) (hp : n.path = some p)
    (hdir : disk.isDir p = true) (hnfile : disk.isFile p = false)
    (hf : f ∈ disk.files) (hund : isUnder p f.path = true)
    (hsupp : pathSupported f.path = true) :
    f.path ∈ (collectChecked disk roots).map Prod.snd :=
  mem_gatherList_map hroot
    (gather_complete hin hwf hf hsupp hst p hp hdir hnfile hund)

/-- The C1 witness scenario: a checked, never-expanded folder node; the
file exists only on disk, not in the tree. -/
def disk1 : Disk :=
  ⟨[⟨["C:", "music", "song.mp3"], some (some ["T"])⟩],
    [["C:"], ["C:", "music"]]⟩

/-- The checked, unexpanded folder node for the C1 witness. -/
def root1 : TNode := .mk (some ["C:", "music"]) "music" .checked []

theorem C1_witness :
    ["C:", "music", "song.mp3"] ∈
      (collectChecked disk1 [root1]).map Prod.snd :=
  C1_collector_complete disk1 [root1] root1 root1 ["C:", "music"]
    ⟨["C:", "music", "song.mp3"], some (some ["T"])⟩
    (List.Mem.head _)
    (WF.mk (fun h => by cases h) (fun c hc => absurd hc (List.not_mem_nil c))
      (fun c hc => absurd hc (List.not_mem_nil c)))
    (.refl _) rfl rfl (by decide) (by decide) (List.Mem.head _) (by decide)
    (by decide)

/-!  Claim C6: idempotence of the rename pipeline.  -/

/-- Two files whose titles form a chain: `a.mp3` is titled `b` (collides
with the existing `b.mp3`), `b.mp3` is titled `c`. -/
def disk6 : Disk :=
  ⟨[⟨["m", "a.mp3"], some (some ["b"])⟩,
    ⟨["m", "b.mp3"], some (some ["c"])⟩], [["m"]]⟩

/-- The checked folder node for the C6 scenario. -/
def root6 : TNode := .mk (some ["m"]) "m" .checked []

/-- The first run of the pipeline on the checked folder. -/
def run6a : RenameState :=
  runRename ⟨disk6, 0, []⟩ ((collectChecked disk6 [root6]).map Prod.snd)

/-- The folder node after the post-run refresh. -/
def root6b : TNode := refreshFolder (diskListing run6a.disk ["m"]) root6

/-- The second run of the pipeline on the same selection (the same checked
folder, regathered). -/
def run6b : RenameState :=
  runRename ⟨run6a.disk, 0, []⟩
    ((collectChecked run6a.disk [root6b]).map Prod.snd)

/-- Counterexample to claim C6 as stated: the first run renames `b.mp3` to
`c.mp3`, freeing the target `b.mp3`; the second run of the identical
pipeline then renames `a.mp3` to `b.mp3` — one additional rename, not
zero. -/
theorem C6_counterexample : run6a.renamed = 1 ∧ run6b.renamed = 1 := by
  decide

/-- Paths of the snapshot's files are pairwise distinct. -/
def pathsNodup (d : Disk) : Prop := (d.files.map DiskFile.path).Nodup

theorem find?_path_eq {l : List DiskFile}
    (hnd : (l.map DiskFile.path).Nodup) {f : DiskFile} (hf : f ∈ l) :
    l.find? (fun g => g.path == f.path) = some f := by
  induction l with
  | nil => cases hf
  | cons a as ih =>
    rw [List.map_cons, List.nodup_cons] at hnd
    rcases List.mem_cons.mp hf with rfl | hmem
    · exact List.find?_cons_of_pos _ (by simp)
    · have hne : (a.path == f.path) = false := by
        rw [beq_eq_false_iff_ne]
        intro he
        exact hnd.1 (he ▸ List.mem_map_of_mem DiskFile.path hmem)
      rw [List.find?_cons, hne]
      exact ih hnd.2 hmem

/-- The title the engine reads for a file, as a function of the file
alone (valid on snapshots with pairwise-distinct paths). -/
def fileTitle (f : DiskFile) : Option String :=
  if extOf (f.path.getLastD "") = ".mp3" then
    match f.tags with
    | none => none
    | some tg => some (String.join (tg.getD [stemOf (f.path.getLastD "") 4]))
  else if extOf (f.path.getLastD "") = ".flac" then
    match f.tags with
    | none => none
    | some tg => some (String.join (tg.getD [stemOf (f.path.getLastD "") 5]))
  else if extOf (f.path.getLastD "") = ".wav" then
    match f.tags with
    | none => none
    | some tg => some (String.join (tg.getD [stemOf (f.path.getLastD "") 4]))
  else none

/-- The new path the engine computes for a file, as a function of the file
alone. -/
def fileNewPath (f : DiskFile) : Option FsPath :=
  match fileTitle f with
  | none => none
  | some title =>
    some (f.path.dropLast ++ splitSlash (title ++ extOf (f.path.getLastD "")))

theorem readTitle_eq_fileTitle {d : Disk} (hnd : pathsNodup d)
    {f : DiskFile} (hf : f ∈ d.files) :
    readTitle d f.path = fileTitle f := by
  unfold readTitle fileTitle
  simp only [find?_path_eq hnd hf]

theorem computeNewPath_eq_fileNewPath {d : Disk} (hnd : pathsNodup d)
    {f : DiskFile} (hf : f ∈ d.files) :
    computeNewPath d f.path = fileNewPath f := by
  unfold computeNewPath fileNewPath
  rw [readTitle_eq_fileTitle hnd hf]

theorem not_mem_paths_of_existsPath_false {d : Disk} {np : FsPath}
    (h : d.existsPath np = false) : np ∉ d.files.map DiskFile.path := by
  intro hmem
  rcases List.mem_map.mp hmem with ⟨g, hg, rfl⟩
  unfold Disk.existsPath Disk.isFile at h
  rw [Bool.or_eq_false_iff] at h
  have h1 := List.any_eq_false.mp h.1 g hg
  exact h1 (by simp)

theorem renamePath_nodup {d : Disk} {q np : FsPath} (hnd : pathsNodup d)
    (hnp : np ∉ d.files.map DiskFile.path) :
    pathsNodup (renamePath d q np) := by
  unfold pathsNodup at hnd ⊢
  unfold renamePath
  have heq : (d.files.map fun f => if f.path == q then
      (⟨np, f.tags⟩ : DiskFile) else f).map DiskFile.path =
      (d.files.map DiskFile.path).map fun x => if x == q then np else x := by
    rw [List.map_map, List.map_map]
    apply List.map_congr_left
    intro g _
    by_cases hg : (g.path == q) = true
    · simp only [Function.comp_apply, hg, if_pos]
    · simp only [Function.comp_apply, Bool.not_eq_true] at hg
      simp only [Function.comp_apply, hg]
      rfl
  rw [heq]
  apply hnd.map_on
  intro x hx y hy hxy
  by_cases h1 : (x == q) = true <;> by_cases h2 : (y == q) = true
  · rw [beq_iff_eq] at h1 h2; rw [h1, h2]
  · rw [if_pos h1, if_neg h2] at hxy
    exact absurd (hxy ▸ hy) hnp
  · rw [if_neg h1, if_pos h2] at hxy
    exact absurd (hxy ▸ hx) hnp
  · rwa [if_neg h1, if_neg h2] at hxy

/-- The `continue` of the metadata `try` block, as an equation. -/
theorem processOne_none {st : RenameState} {q : FsPath}
    (h : computeNewPath st.disk q = none) : processOne st q = st := by
  unfold processOne
  simp [h]

/-- The collision skip, as an equation. -/
theorem processOne_skip {st : RenameState} {q np : FsPath}
    (h : computeNewPath st.disk q = some np)
    (hex : st.disk.existsPath np = true) : processOne st q = st := by
  unfold processOne
  simp [h, hex]

/-- The successful rename, as an equation. -/
theorem processOne_rename {st : RenameState} {q np : FsPath}
    (h : computeNewPath st.disk q = some np)
    (hex : st.disk.existsPath np = false) :
    processOne st q =
      ⟨renamePath st.disk q np, st.renamed + 1,
        addFolder q.dropLast st.refresh⟩ := by
  unfold processOne
  simp [h, hex]

/-- A step of the loop never touches a file whose computed new path is its
own current path, and keeps path-distinctness. -/
theorem processOne_preserves {st : RenameState} {f : DiskFile}
    (hnd : pathsNodup st.disk) (hf : f ∈ st.disk.files)
    (hstable : fileNewPath f = some f.path) (q : FsPath) :
    f ∈ (processOne st q).disk.files ∧ pathsNodup (processOne st q).disk := by
  cases hc : computeNewPath st.disk q with
  | none => rw [processOne_none hc]; exact ⟨hf, hnd⟩
  | some np =>
    cases hex : st.disk.existsPath np with
    | true => rw [processOne_skip hc hex]; exact ⟨hf, hnd⟩
    | false =>
      rw [processOne_rename hc hex]
      have hnp := not_mem_paths_of_existsPath_false hex
      constructor
      · have hqf : (f.path == q) = false := by
          rw [beq_eq_false_iff_ne]
          intro he
          rw [← he, computeNewPath_eq_fileNewPath hnd hf, hstable] at hc
          injection hc with hc
          subst hc
          exact hnp (List.mem_map_of_mem DiskFile.path hf)
        show f ∈ (renamePath st.disk q np).files
        unfold renamePath
        exact List.mem_map.mpr ⟨f, hf, by rw [hqf]; rfl⟩
      · exact renamePath_nodup hnd hnp

/-- Iterating the loop never touches a file whose computed new path is its
own current path. -/
theorem runRename_preserves {f : DiskFile} :
    ∀ (sel : List FsPath) (st : RenameState), pathsNodup st.disk →
      f ∈ st.disk.files → fileNewPath f = some f.path →
      f ∈ (runRename st sel).disk.files := by
  intro sel
  induction sel with
  | nil => intro st _ hf _; exact hf
  | cons q rest ih =>
    intro st hnd hf hstable
    have hp := processOne_preserves hnd hf hstable q
    exact ih (processOne st q) hp.2 hp.1 hstable

/-- A file whose name is a separator-free, not-all-dots title followed by a
supported extension, and whose stored title values (if any) join to that
same title, computes its own path as the new path: the engine skips it. -/
theorem fileNewPath_stable (folder : FsPath) (t ext : String)
    (tg : Option (List String))
    (hext : ext = ".mp3" ∨ ext = ".flac" ∨ ext = ".wav")
    (hslash : ∀ c ∈ t.data, c ≠ '/')
    (hdot : t.data.any (· ≠ '.') = true)
    (hteq : ∀ vs, tg = some vs → t = String.join vs) :
    fileNewPath ⟨folder ++ [t ++ ext], some tg⟩ =
      some (folder ++ [t ++ ext]) := by
  have hname : (folder ++ [t ++ ext]).getLastD "" = t ++ ext :=
    List.getLastD_concat _ _ _
  have hsl : ∀ c ∈ (t ++ ext).data, c ≠ '/' := by
    intro c hc
    rw [String.data_append] at hc
    rcases List.mem_append.mp hc with h1 | h2
    · exact hslash c h1
    · rcases hext with h | h | h <;> rw [h] at h2 <;> fin_cases h2 <;> decide
  rcases hext with h | h | h <;> subst h
  · unfold fileNewPath fileTitle
    dsimp only
    rw [hname, extOf_mp3 hdot, if_pos rfl]
    have htt : String.join (tg.getD [stemOf (t ++ ".mp3") 4]) = t := by
      cases tg with
      | none =>
        rw [Option.getD_none, stemOf_append t _ (by decide), join_singleton]
      | some vs => rw [Option.getD_some]; exact (hteq vs rfl).symm
    rw [htt]
    dsimp only
    rw [splitSlash_eq hsl, List.dropLast_concat]
  · unfold fileNewPath fileTitle
    dsimp only
    rw [hname, extOf_flac hdot, if_neg (by decide), if_pos rfl]
    have htt : String.join (tg.getD [stemOf (t ++ ".flac") 5]) = t := by
      cases tg with
      | none =>
        rw [Option.getD_none, stemOf_append t _ (by decide), join_singleton]
      | some vs => rw [Option.getD_some]; exact (hteq vs rfl).symm
    rw [htt]
    dsimp only
    rw [splitSlash_eq hsl, List.dropLast_concat]
  · unfold fileNewPath fileTitle
    dsimp only
    rw [hname, extOf_wav hdot, if_neg (by decide), if_neg (by decide),
      if_pos rfl]
    have htt : String.join (tg.getD [stemOf (t ++ ".wav") 4]) = t := by
      cases tg with
      | none =>
        rw [Option.getD_none, stemOf_append t _ (by decide), join_singleton]
      | some vs => rw [Option.getD_some]; exact (hteq vs rfl).symm
    rw [htt]
    dsimp only
    rw [splitSlash_eq hsl, List.dropLast_concat]

/-- A successfully resolved title comes from the found file's tags: the
file has readable tags, and if a title key is present the title is the join
of its values. -/
theorem tags_title_of_readTitle {d : Disk} {p : FsPath} {f : DiskFile}
    {t : String} (hfind : d.files.find? (fun g => g.path == p) = some f)
    (ht : readTitle d p = some t) :
    ∃ tg, f.tags = some tg ∧ ∀ vs, tg = some vs → t = String.join vs := by
  unfold readTitle at ht
  simp only [hfind] at ht
  by_cases h1 : extOf (p.getLastD "") = ".mp3"
  · rw [if_pos h1] at ht
    cases htg : f.tags with
    | none => rw [htg] at ht; exact absurd ht (by simp)
    | some tg =>
      simp only [htg, Option.some.injEq] at ht
      refine ⟨tg, rfl, ?_⟩
      intro vs hv
      rw [hv, Option.getD_some] at ht
      exact ht.symm
  · rw [if_neg h1] at ht
    by_cases h2 : extOf (p.getLastD "") = ".flac"
    · rw [if_pos h2] at ht
      cases htg : f.tags with
      | none => rw [htg] at ht; exact absurd ht (by simp)
      | some tg =>
        simp only [htg, Option.some.injEq] at ht
        refine ⟨tg, rfl, ?_⟩
        intro vs hv
        rw [hv, Option.getD_some] at ht
        exact ht.symm
    · rw [if_neg h2] at ht
      by_cases h3 : extOf (p.getLastD "") = ".wav"
      · rw [if_pos h3] at ht
        cases htg : f.tags with
        | none => rw [htg] at ht; exact absurd ht (by simp)
        | some tg =>
          simp only [htg, Option.some.injEq] at ht
          refine ⟨tg, rfl, ?_⟩
          intro vs hv
          rw [hv, Option.getD_some] at ht
          exact ht.symm
      · rw [if_neg h3] at ht
        exact absurd ht (by simp)

/-- Claim C6 (amended): each file is renamed at most once.  When a run of
the pipeline successfully renames a file (with a separator-free,
not-all-dots title), the renamed file's recomputed new path equals its new
current path, so every further iteration — in particular the entire second
run on the same selection — leaves it untouched.  The counterexample shows
the other half of the original claim fails: a file skipped for collision in
the first run can be renamed by the second run, so the second run need not
perform zero renames. -/
theorem C6_renamed_at_most_once (st : RenameState) (p np : FsPath)
    (f : DiskFile) (t : String)
    (hnd : pathsNodup st.disk)
    (hfind : st.disk.files.find? (fun g => g.path == p) = some f)
    (ht : readTitle st.disk p = some t)
    (hslash : ∀ c ∈ t.data, c ≠ '/')
    (hdot : t.data.any (· ≠ '.') = true)
    (hnp : np = p.dropLast ++ [t ++ extOf (p.getLastD "")])
    (hnex : st.disk.existsPath np = false) :
    computeNewPath st.disk p = some np ∧
    processOne st p =
      ⟨renamePath st.disk p np, st.renamed + 1,
        addFolder p.dropLast st.refresh⟩ ∧
    ∀ sel : List FsPath,
      (⟨np, f.tags⟩ : DiskFile) ∈
        (runRename (processOne st p) sel).disk.files := by
  have hext := readTitle_ext_supported ht
  have hsl : ∀ c ∈ (t ++ extOf (p.getLastD "")).data, c ≠ '/' := by
    intro c hc
    rw [String.data_append] at hc
    rcases List.mem_append.mp hc with h1 | h2
    · exact hslash c h1
    · rcases hext with h | h | h <;> rw [h] at h2 <;> fin_cases h2 <;> decide
  have ha : computeNewPath st.disk p = some np := by
    unfold computeNewPath
    simp only [ht]
    rw [splitSlash_eq hsl, hnp]
  have hb := processOne_rename ha hnex
  refine ⟨ha, hb, ?_⟩
  intro sel
  have hfm := List.mem_of_find?_eq_some hfind
  have hfp := List.find?_some hfind
  have hmem' : (⟨np, f.tags⟩ : DiskFile) ∈ (renamePath st.disk p np).files := by
    unfold renamePath
    exact List.mem_map.mpr ⟨f, hfm, by rw [if_pos hfp]⟩
  have hnd' : pathsNodup (renamePath st.disk p np) :=
    renamePath_nodup hnd (not_mem_paths_of_existsPath_false hnex)
  obtain ⟨tg, htg, hteq⟩ := tags_title_of_readTitle hfind ht
  have hstable : fileNewPath ⟨np, f.tags⟩ = some np := by
    rw [htg]
    rcases hext with h | h | h <;> rw [h] at hnp <;> rw [hnp] <;>
      [exact fileNewPath_stable p.dropLast t ".mp3" tg (Or.inl rfl)
        hslash hdot hteq;
       exact fileNewPath_stable p.dropLast t ".flac" tg (Or.inr (Or.inl rfl))
        hslash hdot hteq;
       exact fileNewPath_stable p.dropLast t ".wav" tg (Or.inr (Or.inr rfl))
        hslash hdot hteq]
  rw [hb]
  exact runRename_preserves sel _ hnd' hmem' hstable

/-- The C6 witness scenario: `track1.mp3` titled `Sunrise`, no collision. -/
def disk6w : Disk :=
  ⟨[⟨["C:", "track1.mp3"], some (some ["Sunrise"])⟩], [["C:"]]⟩

theorem C6_witness :
    (⟨["C:", "Sunrise.mp3"], some (some ["Sunrise"])⟩ : DiskFile) ∈
      (runRename (processOne ⟨disk6w, 0, []⟩ ["C:", "track1.mp3"])
        [["C:", "Sunrise.mp3"], ["C:", "x.mp3"]]).disk.files :=
  (C6_renamed_at_most_once ⟨disk6w, 0, []⟩ ["C:", "track1.mp3"]
    ["C:", "Sunrise.mp3"] ⟨["C:", "track1.mp3"], some (some ["Sunrise"])⟩
    "Sunrise" (by unfold pathsNodup; decide) (by decide) (by decide)
    (by decide) (by decide) (by decide) (by decide)).2.2
    [["C:", "Sunrise.mp3"], ["C:", "x.mp3"]]

end FileHarmony
